import Mathlib

/-!
Verification of the shell-analyser analysis pipeline (src/main.go).

Modelling conventions:
* Go strings are Lean `String`s; the character-level helpers below mirror the
  `strings` package functions the source uses (`Fields`, `Contains`,
  `HasPrefix`, `TrimSpace`, `Trim`, `TrimPrefix`, `SplitN(_, "=", 2)`).
* Go maps are association lists with last-write-wins insertion (`insertA`);
  where the randomized iteration order of a Go map is observable, the order is
  made an explicit list parameter.
* float64 scores are modelled as exact rationals; the scores at issue are
  small ratios of machine integers.
* File-system and subprocess effects (history files, `analyzeShellConfigs`,
  `exec.LookPath`) are passed in as explicit function parameters.
-/

namespace ShellAnalyser

/-- Embeds Go `strings.Fields`: single left-to-right scan splitting the
character list around maximal runs of whitespace; `acc` holds the reversed
characters of the field being read. -/
def fieldsAux : List Char → List Char → List String
  | acc, [] => if acc.isEmpty then [] else [String.mk acc.reverse]
  | acc, c :: cs =>
    if c.isWhitespace then
      if acc.isEmpty then fieldsAux [] cs
      else String.mk acc.reverse :: fieldsAux [] cs
    else fieldsAux (c :: acc) cs

/-- Embeds Go `strings.Fields` on a `String`. -/
def fields (s : String) : List String := fieldsAux [] s.toList

/-- Embeds src/main.go `cleanHistoryLine`: the last whitespace-separated
field of the line, or the empty string when there is none. -/
def cleanHistoryLine (line : String) : String :=
  match (fields line).getLast? with
  | some t => t
  | none => ""

/-- Substring occurrence check on character lists. -/
def infixCheck (sub : List Char) : List Char → Bool
  | [] => sub.isEmpty
  | c :: cs => sub.isPrefixOf (c :: cs) || infixCheck sub cs

/-- Embeds Go `strings.Contains`. Note that `strings.Contains(s, "")` is
`true` in Go, which this definition reproduces. -/
def containsStr (s sub : String) : Bool := infixCheck sub.toList s.toList

/-- Embeds Go `strings.HasPrefix`. -/
def hasPrefixStr (s p : String) : Bool := p.toList.isPrefixOf s.toList

/-- Embeds the category table of src/main.go `categorizeCommand`. -/
def categoryPatterns : List (String × List String) :=
  [("development", ["git", "docker", "npm", "go", "python"]),
   ("system", ["sudo", "systemctl", "ps", "top"]),
   ("file", ["ls", "cd", "cp", "mv", "rm"])]

/-- Embeds src/main.go `categorizeCommand`. Go iterates the pattern map in
randomized order; the embedding fixes the textual order, which only permutes
the returned list (the claims are about membership). -/
def categorizeCommand (cmd : String) : List String :=
  categoryPatterns.foldl
    (fun acc p => if p.2.any (fun pat => hasPrefixStr cmd pat) then acc ++ [p.1] else acc)
    []

/-- Embeds the regex `git (commit|push|pull|merge)` of
src/main.go `analyzeCommandPattern`: it matches a string iff one of the four
literal phrases occurs in it. -/
def gitWorkflowMatch (cmd : String) : Bool :=
  containsStr cmd "git commit" || containsStr cmd "git push" ||
  containsStr cmd "git pull" || containsStr cmd "git merge"

/-- Embeds the regex `(make|build|compile)` of `analyzeCommandPattern`. -/
def buildMatch (cmd : String) : Bool :=
  containsStr cmd "make" || containsStr cmd "build" || containsStr cmd "compile"

/-- Embeds the regex `(deploy|kubectl|docker)` of `analyzeCommandPattern`. -/
def deployMatch (cmd : String) : Bool :=
  containsStr cmd "deploy" || containsStr cmd "kubectl" || containsStr cmd "docker"

/-- Embeds the regex `test|spec|pytest` of `analyzeCommandPattern`. -/
def testMatch (cmd : String) : Bool :=
  containsStr cmd "test" || containsStr cmd "spec" || containsStr cmd "pytest"

/-- Embeds src/main.go `CommandEntry`. The `Count` field of the Go struct is
never read or written by the pipeline and is omitted; `Timestamp` is reduced
to the hour component, the only part the pipeline reads. -/
structure CommandEntry where
  command : String
  hour : Nat
  categories : List String
deriving DecidableEq

/-- Embeds src/main.go `readHistory` over the lines of the history file. The
real code stamps every entry with `time.Now()`; its hour is the `nowHour`
parameter. -/
def readHistory (lines : List String) (nowHour : Nat) : List CommandEntry :=
  lines.filterMap (fun line =>
    let cmd := cleanHistoryLine line
    if cmd = "" then none
    else some { command := cmd, hour := nowHour, categories := categorizeCommand cmd })

/-- Association-list lookup, modelling Go map reads. -/
def lookupA {α : Type} : List (String × α) → String → Option α
  | [], _ => none
  | p :: m, k => if k = p.1 then some p.2 else lookupA m k

/-- Association-list write, modelling the Go map assignment `m[k] = v`
(last write wins; lookups of other keys are unchanged). -/
def insertA {α : Type} (m : List (String × α)) (k : String) (v : α) :
    List (String × α) :=
  (k, v) :: m.filter (fun p => !(p.1 == k))

/-- First-appearance deduplication, modelling the key set of a Go map that is
built by repeated `m[k]++` increments. -/
def dedupFirst {α : Type} [DecidableEq α] : List α → List α
  | [] => []
  | h :: t => h :: (dedupFirst t).filter (fun x => x != h)

/-- Embeds src/main.go `getPackageManager`: the Go map lookup returns the
zero value (the empty string) for a language with no table entry. -/
def getPackageManager (lang : String) : String :=
  if lang = "python" then "pip"
  else if lang = "node" then "npm"
  else if lang = "go" then "go get"
  else if lang = "rust" then "cargo"
  else if lang = "ruby" then "gem"
  else if lang = "php" then "composer"
  else ""

/-- Embeds the per-entry language test in src/main.go `analyzeCommands`
(lines 560-561): `strings.Contains(cmd, lang) || strings.Contains(cmd,
getPackageManager(lang))`. -/
def langMatches (cmd lang : String) : Bool :=
  containsStr cmd lang || containsStr cmd (getPackageManager lang)

/-- Embeds the `langUsage` map of `analyzeCommands` after the per-entry
loop: each installed language maps to the number of entries matching it, and
a language whose count is zero was never inserted, so it is absent. The list
order stands for the (randomized) Go map iteration order over
`installedLangs`. -/
def langUsage (installedLangs : List String) (entries : List CommandEntry) :
    List (String × Nat) :=
  installedLangs.filterMap (fun lang =>
    let c := entries.countP (fun e => langMatches e.command lang)
    if 0 < c then some (lang, c) else none)

/-- Embeds the fixed development-tool list of `analyzeCommands` (line 567). -/
def toolsList : List String :=
  ["git", "docker", "kubectl", "terraform", "ansible", "make"]

/-- Embeds the `toolUsage` map of `analyzeCommands`: a tool counts for an
entry iff the command has the tool as a prefix and `checkToolInstalled`
(abstracted as `toolInstalled`) succeeds. -/
def toolUsage (toolInstalled : String → Bool) (entries : List CommandEntry) :
    List (String × Nat) :=
  toolsList.filterMap (fun tool =>
    let c := entries.countP (fun e => hasPrefixStr e.command tool && toolInstalled tool)
    if 0 < c then some (tool, c) else none)

/-- Embeds src/main.go `getMostUsed`: fold keeping the strictly greater
count, starting from `("", 0)`; the boolean result `maxVal > 0` is modelled
by `Option`. The input list order stands for the randomized Go map iteration
order. -/
def getMostUsed (usage : List (String × Nat)) : Option String :=
  let m := usage.foldl (fun acc kv => if kv.2 > acc.2 then kv else acc) ("", 0)
  if m.2 > 0 then some m.1 else none

/-- Insertion step of the descending-by-count sort used by `getPeakHours`. -/
def insertByCount (x : Nat × Nat) : List (Nat × Nat) → List (Nat × Nat)
  | [] => [x]
  | y :: ys => if y.2 > x.2 then y :: insertByCount x ys else x :: y :: ys

/-- Descending sort by count. src/main.go `getPeakHours` calls `sort.Slice`
(an unstable sort) on a slice produced by randomized map iteration; this
stable sort applied to the given bucket order realizes one admissible
execution of that code, with the bucket order an explicit parameter. -/
def sortByCountDesc : List (Nat × Nat) → List (Nat × Nat)
  | [] => []
  | x :: xs => insertByCount x (sortByCountDesc xs)

/-- Embeds src/main.go `getPeakHours`: sort the (hour, count) buckets by
descending count and return the first at most 3 hours. -/
def getPeakHours (timeOfDay : List (Nat × Nat)) : List Nat :=
  ((sortByCountDesc timeOfDay).take 3).map (fun p => p.1)

/-- Embeds the `timeOfDay` map built in `analyzeCommands`: hour-of-day to
number of entries at that hour, keys in first-appearance order. -/
def hourBuckets (entries : List CommandEntry) : List (Nat × Nat) :=
  (dedupFirst (entries.map (fun e => e.hour))).map
    (fun h => (h, entries.countP (fun e => e.hour == h)))

/-- Embeds the sum `patterns["git_workflow"] + patterns["build"] +
patterns["deploy"] + patterns["test"]` of `calculateProductivityMetrics`,
where `analyzeCommandPattern` incremented each pattern once per matching
entry. -/
def workflowPatternCount (entries : List CommandEntry) : Nat :=
  entries.countP (fun e => gitWorkflowMatch e.command) +
  entries.countP (fun e => buildMatch e.command) +
  entries.countP (fun e => deployMatch e.command) +
  entries.countP (fun e => testMatch e.command)

/-- Embeds src/main.go `calculateProductivityMetrics`. The `uniqueCommands`
set size is the number of distinct command strings. -/
def calculateProductivityMetrics (entries : List CommandEntry) :
    List (String × Rat) :=
  if entries.length = 0 then []
  else
    [("Command Variety",
      ((dedupFirst (entries.map (fun e => e.command))).length : Rat) /
        (entries.length : Rat)),
     ("Workflow Complexity",
      (workflowPatternCount entries : Rat) / (entries.length : Rat))]

/-- Embeds src/main.go `TechProfile`. -/
structure TechProfile where
  primaryRole : String
  secondarySkills : List String
  techStack : List String
  proficiency : List (String × Rat)
deriving DecidableEq

/-- Embeds src/main.go `WorkPatterns`. -/
structure WorkPatterns where
  peakHours : List Nat
  commonWorkflows : List String
  productivity : List (String × Rat)
deriving DecidableEq

/-- Embeds src/main.go `DetailedInsights`. The `ToolUsage` sub-struct is
never written by the pipeline (its maps stay empty) and is omitted. -/
structure DetailedInsights where
  technicalProfile : TechProfile
  workPatterns : WorkPatterns
deriving DecidableEq

/-- Embeds the `Insights` part of src/main.go `initShellData`: empty maps,
zero values elsewhere. -/
def initInsights : DetailedInsights :=
  { technicalProfile :=
      { primaryRole := "", secondarySkills := [], techStack := [], proficiency := [] }
    workPatterns :=
      { peakHours := [], commonWorkflows := [], productivity := [] } }

/-- Embeds src/main.go `analyzeCommands`: folds one shell's history into the
shared `DetailedInsights` accumulator. `installedLangs` is the key list of
`getInstalledLanguages()` (probe results, order standing for map iteration
order); `toolInstalled` abstracts `checkToolInstalled`. -/
def analyzeCommands (installedLangs : List String) (toolInstalled : String → Bool)
    (entries : List CommandEntry) (ins : DetailedInsights) : DetailedInsights :=
  let lu := langUsage installedLangs entries
  let tu := toolUsage toolInstalled entries
  let total := entries.length
  let primaryRole :=
    match getMostUsed lu with
    | some lang => lang.capitalize ++ " Developer"
    | none => ins.technicalProfile.primaryRole
  let techStack := installedLangs.filter (fun lang => decide (0 < (lookupA lu lang).getD 0))
  let proficiency :=
    if 0 < total then
      (lu ++ tu).foldl (fun m kv => insertA m kv.1 ((kv.2 : Rat) / (total : Rat)))
        ins.technicalProfile.proficiency
    else ins.technicalProfile.proficiency
  { technicalProfile :=
      { primaryRole := primaryRole
        secondarySkills := ins.technicalProfile.secondarySkills
        techStack := techStack
        proficiency := proficiency }
    workPatterns :=
      { peakHours := getPeakHours (hourBuckets entries)
        commonWorkflows := ins.workPatterns.commonWorkflows
        productivity := calculateProductivityMetrics entries } }

/-- Embeds src/main.go `ShellConfig`, restricted to the fields
`parseShellConfig` writes (`ConfigFiles` and `Plugins` are filled from the
file system by other functions and are independent of parsing). -/
structure ShellConfig where
  aliases : List (String × String)
  environment : List (String × String)
deriving DecidableEq

/-- Fresh `ShellConfig` value as built in `analyzeShellConfigs`. -/
def emptyShellConfig : ShellConfig := { aliases := [], environment := [] }

/-- Quote characters stripped by `strings.Trim(v, "'\"")`. -/
def isQuoteChar (c : Char) : Bool := c == '\'' || c == '"'

/-- Embeds Go `strings.TrimSpace`. -/
def trimSpace (s : String) : String :=
  String.mk
    (((s.toList.dropWhile Char.isWhitespace).reverse.dropWhile Char.isWhitespace).reverse)

/-- Embeds Go `strings.Trim(s, "'\"")`: strip all leading and trailing quote
characters. -/
def trimQuotes (s : String) : String :=
  String.mk (((s.toList.dropWhile isQuoteChar).reverse.dropWhile isQuoteChar).reverse)

/-- Embeds Go `strings.TrimPrefix`. -/
def trimPrefixStr (s p : String) : String :=
  if hasPrefixStr s p then String.mk (s.toList.drop p.toList.length) else s

/-- Embeds Go `strings.SplitN(s, "=", 2)` as an option: `none` when the
string has no `=` (Go then returns a one-element slice, which the parser
skips), otherwise the parts before and after the first `=`. -/
def splitEq : List Char → Option (List Char × List Char)
  | [] => none
  | c :: cs =>
    if c = '=' then some ([], cs)
    else (splitEq cs).map (fun p => (c :: p.1, p.2))

/-- Embeds the `alias NAME=VALUE` branch of src/main.go `parseShellConfig`
for one scanner line. -/
def applyAlias (config : ShellConfig) (line : String) : ShellConfig :=
  if hasPrefixStr line "alias " then
    match splitEq (trimPrefixStr line "alias ").toList with
    | some nv =>
        let n := trimSpace (String.mk nv.1)
        let v := trimQuotes (trimSpace (String.mk nv.2))
        { config with aliases := insertA config.aliases n v }
    | none => config
  else config

/-- Embeds the `export NAME=VALUE` branch of src/main.go `parseShellConfig`
for one scanner line. -/
def applyExport (config : ShellConfig) (line : String) : ShellConfig :=
  if hasPrefixStr line "export " then
    match splitEq (trimPrefixStr line "export ").toList with
    | some nv =>
        let n := trimSpace (String.mk nv.1)
        let v := trimQuotes (trimSpace (String.mk nv.2))
        { config with environment := insertA config.environment n v }
    | none => config
  else config

/-- One scanner iteration of src/main.go `parseShellConfig`: the alias check
followed by the export check, exactly as the two sequential `if` blocks. -/
def parseConfigLine (config : ShellConfig) (line : String) : ShellConfig :=
  applyExport (applyAlias config line) line

/-- Embeds src/main.go `parseShellConfig` over the physical lines of the
file content (`bufio.Scanner` line splitting abstracted as a line list). -/
def parseShellConfig (lines : List String) (config : ShellConfig) : ShellConfig :=
  lines.foldl parseConfigLine config

/-- Embeds src/main.go `ShellData`, restricted to the fields the pipeline
writes (`CommonCmds` and `TimePatterns` are never written). -/
structure ShellData where
  histories : List (String × List CommandEntry)
  insights : DetailedInsights
  shellConfigs : List (String × ShellConfig)
deriving DecidableEq

/-- Embeds src/main.go `initShellData`. -/
def initShellData : ShellData :=
  { histories := [], insights := initInsights, shellConfigs := [] }

/-- Embeds src/main.go `analyzeShells`. `shells` is the (randomized)
iteration order of the `shellPaths` map; `readHist` yields the lines of a
shell's history file, or `none` when `os.Open` or the scanner fails;
`configOf` abstracts `analyzeShellConfigs` (a pure function of the file
system, independent of the histories). A failing shell contributes nothing:
its branch adds no history entry, no config entry, and does not run
`analyzeCommands`. -/
def analyzeShellsStep (installedLangs : List String) (toolInstalled : String → Bool)
    (readHist : String → Option (List String)) (configOf : String → ShellConfig)
    (nowHour : Nat) (data : ShellData) (shell : String) : ShellData :=
  match readHist shell with
  | none => data
  | some lines =>
    let history := readHistory lines nowHour
    { histories := insertA data.histories shell history
      insights := analyzeCommands installedLangs toolInstalled history data.insights
      shellConfigs := insertA data.shellConfigs shell (configOf shell) }

/-- Loop of src/main.go `analyzeShells` over the shell table. -/
def analyzeShells (installedLangs : List String) (toolInstalled : String → Bool)
    (readHist : String → Option (List String)) (configOf : String → ShellConfig)
    (nowHour : Nat) (shells : List String) : ShellData :=
  shells.foldl (analyzeShellsStep installedLangs toolInstalled readHist configOf nowHour)
    initShellData

/-- Modelled from the spec, for comparison with `langMatches` (claim C5):
a command counts for a tool iff it contains the tool's invocation name or,
when the tool has a package-manager alias, that alias. -/
def langMatchesClaim (cmd lang : String) : Bool :=
  containsStr cmd lang ||
  (!(getPackageManager lang == "") && containsStr cmd (getPackageManager lang))

/-- Insertion step for the spec-claimed peak-hour ordering. -/
def insertByCountHour (x : Nat × Nat) : List (Nat × Nat) → List (Nat × Nat)
  | [] => [x]
  | y :: ys =>
    if y.2 > x.2 ∨ (y.2 = x.2 ∧ y.1 < x.1) then y :: insertByCountHour x ys
    else x :: y :: ys

/-- Modelled from the spec, for comparison with `sortByCountDesc` (claim
C7): sort by descending count with ties broken by lower hour first. -/
def sortByCountHour : List (Nat × Nat) → List (Nat × Nat)
  | [] => []
  | x :: xs => insertByCountHour x (sortByCountHour xs)

/-- Modelled from the spec, for comparison with `getPeakHours` (claim C7). -/
def getPeakHoursClaim (timeOfDay : List (Nat × Nat)) : List Nat :=
  ((sortByCountHour timeOfDay).take 3).map (fun p => p.1)

/-- Bare history entry used in concrete instantiations. -/
def exEntry (cmd : String) : CommandEntry :=
  { command := cmd, hour := 0, categories := [] }

/-- Ten-command history of which exactly four match the language `python`
(contain `python` or its package-manager alias `pip`). -/
def exampleHistory : List CommandEntry :=
  [exEntry "python", exEntry "python a", exEntry "python b", exEntry "python3",
   exEntry "ls", exEntry "cd x", exEntry "top", exEntry "vim f", exEntry "cat f",
   exEntry "du"]

/-- Concrete file system in which only the zsh history is unreadable. -/
def exReadHist : String → Option (List String) :=
  fun sh => if sh = "zsh" then none else some ["ls"]

/-- Concrete config reader used in concrete instantiations. -/
def exConfigOf : String → ShellConfig := fun _ => emptyShellConfig

theorem lookupA_insertA_self {α : Type} (m : List (String × α)) (k : String) (v : α) :
    lookupA (insertA m k v) k = some v := by
  simp [insertA, lookupA]

theorem lookupA_filter_ne {α : Type} (m : List (String × α)) (k k' : String)
    (h : k' ≠ k) :
    lookupA (m.filter (fun p => !(p.1 == k))) k' = lookupA m k' := by
  induction m with
  | nil => rfl
  | cons p m ih =>
    by_cases hp : p.1 = k
    · have hne : ¬ k' = p.1 := fun hk => h (hk.trans hp)
      simp [List.filter_cons, hp, lookupA, hne, h, ih]
    · by_cases hk : k' = p.1
      · simp [List.filter_cons, hp, lookupA, hk]
      · simp [List.filter_cons, hp, lookupA, hk, ih]

theorem lookupA_insertA_ne {α : Type} (m : List (String × α)) (k k' : String) (v : α)
    (h : k' ≠ k) :
    lookupA (insertA m k v) k' = lookupA m k' := by
  simp only [insertA, lookupA, if_neg h]
  exact lookupA_filter_ne m k k' h

theorem lookupA_eq_none_iff {α : Type} (m : List (String × α)) (k : String) :
    lookupA m k = none ↔ k ∉ m.map Prod.fst := by
  induction m with
  | nil => simp [lookupA]
  | cons p m ih =>
    by_cases hk : k = p.1
    · simp [lookupA, hk]
    · simp [lookupA, hk, ih]

theorem lookupA_foldl_insert_mem {g : String × Nat → Rat} :
    (ps : List (String × Nat)) → (base : List (String × Rat)) → (k : String) →
    (v : Rat) →
    lookupA (ps.foldl (fun m kv => insertA m kv.1 (g kv)) base) k = some v →
    (∃ c, (k, c) ∈ ps ∧ v = g (k, c)) ∨ lookupA base k = some v
  | [], _, _, _, h => Or.inr h
  | kv :: ps, base, k, v, h => by
    rcases lookupA_foldl_insert_mem ps (insertA base kv.1 (g kv)) k v h with hm | hb
    · rcases hm with ⟨c, hc, hv⟩
      exact Or.inl ⟨c, List.mem_cons_of_mem _ hc, hv⟩
    · rcases kv with ⟨k0, c0⟩
      by_cases hk : k = k0
      · subst hk
        rw [lookupA_insertA_self] at hb
        refine Or.inl ⟨c0, List.mem_cons_self _ _, ?_⟩
        exact (Option.some.injEq _ _ ▸ hb).symm
      · rw [lookupA_insertA_ne _ _ _ _ hk] at hb
        exact Or.inr hb

theorem lookupA_foldl_insert_not_mem {g : String × Nat → Rat} :
    (ps : List (String × Nat)) → (base : List (String × Rat)) → (k : String) →
    k ∉ ps.map Prod.fst →
    lookupA (ps.foldl (fun m kv => insertA m kv.1 (g kv)) base) k = lookupA base k
  | [], _, _, _ => rfl
  | kv :: ps, base, k, h => by
    have hne : k ≠ kv.1 := by
      intro hk
      exact h (by simp [hk])
    have hrest : k ∉ ps.map Prod.fst := by
      intro hk
      exact h (by simp [hk])
    rw [List.foldl_cons, lookupA_foldl_insert_not_mem ps _ k hrest,
      lookupA_insertA_ne _ _ _ _ hne]

theorem lookupA_filterMap_of_none {α : Type} (f : String → Option (String × α))
    (hf : ∀ t p, f t = some p → p.1 = t) (k : String) (hk : f k = none) :
    (l : List String) → lookupA (l.filterMap f) k = none
  | [] => rfl
  | a :: l => by
    rcases ha : f a with _ | p
    · simpa [List.filterMap_cons, ha] using lookupA_filterMap_of_none f hf k hk l
    · have hpa : p.1 = a := hf a p ha
      have hne : k ≠ a := fun h => by
        rw [h] at hk
        rw [hk] at ha
        exact Option.noConfusion ha
      have : ¬ k = p.1 := by rw [hpa]; exact hne
      simp only [List.filterMap_cons, ha, lookupA, if_neg this]
      exact lookupA_filterMap_of_none f hf k hk l

theorem lookupA_filterMap_of_some {α : Type} (f : String → Option (String × α))
    (hf : ∀ t p, f t = some p → p.1 = t) (k : String) (v : α)
    (hk : f k = some (k, v)) :
    (l : List String) → k ∈ l → lookupA (l.filterMap f) k = some v
  | [], h => absurd h (List.not_mem_nil k)
  | a :: l, h => by
    by_cases hka : k = a
    · subst hka
      simp [List.filterMap_cons, hk, lookupA]
    · have hmem : k ∈ l := by
        rcases List.mem_cons.mp h with h' | h'
        · exact absurd h' hka
        · exact h'
      rcases ha : f a with _ | p
      · simpa [List.filterMap_cons, ha] using
          lookupA_filterMap_of_some f hf k v hk l hmem
      · have hpa : p.1 = a := hf a p ha
        have hkp : ¬ k = p.1 := by rw [hpa]; exact hka
        simp only [List.filterMap_cons, ha, lookupA, if_neg hkp]
        exact lookupA_filterMap_of_some f hf k v hk l hmem

theorem lookupA_filterMap_not_mem {α : Type} (f : String → Option (String × α))
    (hf : ∀ t p, f t = some p → p.1 = t) (k : String) :
    (l : List String) → k ∉ l → lookupA (l.filterMap f) k = none
  | [], _ => rfl
  | a :: l, h => by
    have hka : k ≠ a := fun hk => h (hk ▸ List.mem_cons_self a l)
    have hmem : k ∉ l := fun hk => h (List.mem_cons_of_mem a hk)
    rcases ha : f a with _ | p
    · simpa [List.filterMap_cons, ha] using lookupA_filterMap_not_mem f hf k l hmem
    · have hpa : p.1 = a := hf a p ha
      have hkp : ¬ k = p.1 := by rw [hpa]; exact hka
      simp only [List.filterMap_cons, ha, lookupA, if_neg hkp]
      exact lookupA_filterMap_not_mem f hf k l hmem

theorem langUsage_keyed (entries : List CommandEntry) :
    ∀ t p, (fun lang =>
        let c := entries.countP (fun e => langMatches e.command lang)
        if 0 < c then some (lang, c) else none) t = some p → p.1 = t := by
  intro t p h
  simp only [] at h
  by_cases hc : 0 < entries.countP (fun e => langMatches e.command t)
  · rw [if_pos hc] at h
    cases h
    rfl
  · rw [if_neg hc] at h
    exact Option.noConfusion h

theorem lookupA_langUsage (installedLangs : List String) (entries : List CommandEntry)
    (lang : String) :
    lookupA (langUsage installedLangs entries) lang =
      if lang ∈ installedLangs ∧
          0 < entries.countP (fun e => langMatches e.command lang) then
        some (entries.countP (fun e => langMatches e.command lang))
      else none := by
  by_cases hmem : lang ∈ installedLangs
  · by_cases hc : 0 < entries.countP (fun e => langMatches e.command lang)
    · rw [if_pos ⟨hmem, hc⟩]
      exact lookupA_filterMap_of_some _ (langUsage_keyed entries) lang _
        (by simp [hc]) installedLangs hmem
    · rw [if_neg (fun h => hc h.2)]
      exact lookupA_filterMap_of_none _ (langUsage_keyed entries) lang
        (by simp [hc]) installedLangs
  · rw [if_neg (fun h => hmem h.1)]
    exact lookupA_filterMap_not_mem _ (langUsage_keyed entries) lang installedLangs hmem

theorem toolUsage_keyed (toolInstalled : String → Bool) (entries : List CommandEntry) :
    ∀ t p, (fun tool =>
        let c := entries.countP
          (fun e => hasPrefixStr e.command tool && toolInstalled tool)
        if 0 < c then some (tool, c) else none) t = some p → p.1 = t := by
  intro t p h
  simp only [] at h
  by_cases hc :
      0 < entries.countP (fun e => hasPrefixStr e.command t && toolInstalled t)
  · rw [if_pos hc] at h
    cases h
    rfl
  · rw [if_neg hc] at h
    exact Option.noConfusion h

theorem lookupA_toolUsage_not_installed (toolInstalled : String → Bool)
    (entries : List CommandEntry) (tool : String)
    (h : toolInstalled tool = false) :
    lookupA (toolUsage toolInstalled entries) tool = none := by
  by_cases hmem : tool ∈ toolsList
  · refine lookupA_filterMap_of_none _ (toolUsage_keyed toolInstalled entries) tool ?_ _
    have hz : entries.countP
        (fun e => hasPrefixStr e.command tool && toolInstalled tool) = 0 := by
      simp [h]
    simp [hz]
  · exact lookupA_filterMap_not_mem _ (toolUsage_keyed toolInstalled entries) tool _ hmem

theorem mem_langUsage (installedLangs : List String) (entries : List CommandEntry)
    (k : String) (c : Nat) (h : (k, c) ∈ langUsage installedLangs entries) :
    k ∈ installedLangs ∧ c = entries.countP (fun e => langMatches e.command k) ∧
      0 < c := by
  rcases List.mem_filterMap.mp h with ⟨lang, hlang, hf⟩
  by_cases hc : 0 < entries.countP (fun e => langMatches e.command lang)
  · simp only [if_pos hc] at hf
    cases hf
    exact ⟨hlang, rfl, hc⟩
  · simp only [if_neg hc] at hf
    exact Option.noConfusion hf

theorem mem_toolUsage (toolInstalled : String → Bool) (entries : List CommandEntry)
    (k : String) (c : Nat) (h : (k, c) ∈ toolUsage toolInstalled entries) :
    c = entries.countP (fun e => hasPrefixStr e.command k && toolInstalled k) ∧
      0 < c := by
  rcases List.mem_filterMap.mp h with ⟨tool, htool, hf⟩
  by_cases hc :
      0 < entries.countP (fun e => hasPrefixStr e.command tool && toolInstalled tool)
  · simp only [if_pos hc] at hf
    cases hf
    exact ⟨rfl, hc⟩
  · simp only [if_neg hc] at hf
    exact Option.noConfusion hf

/-- C1: for every shell history, every proficiency score recorded by
`analyzeCommands` equals a usage count `c` divided by the total number of
commands in that history, with `c ≤ total`, hence lies in `[0, 1]`; and for
the concrete ten-command history of which exactly four count as python
usage, the proficiency recorded for `python` is `4 / 10 = 0.4`. -/
theorem proficiency_ratio_bounds :
    (∀ (installedLangs : List String) (toolInstalled : String → Bool)
        (entries : List CommandEntry) (k : String) (v : Rat),
      lookupA (analyzeCommands installedLangs toolInstalled entries
          initInsights).technicalProfile.proficiency k = some v →
      (∃ c : Nat, c ≤ entries.length ∧ v = (c : Rat) / (entries.length : Rat)) ∧
        0 ≤ v ∧ v ≤ 1) ∧
    lookupA (analyzeCommands ["python"] (fun _ => false) exampleHistory
        initInsights).technicalProfile.proficiency "python"
      = some (((4 : Nat) : Rat) / ((10 : Nat) : Rat)) ∧
    ((4 : Nat) : Rat) / ((10 : Nat) : Rat) = (0.4 : Rat) := by
  refine ⟨?_, rfl, by norm_num⟩
  intro installedLangs toolInstalled entries k v hv
  simp only [analyzeCommands] at hv
  by_cases htot : 0 < entries.length
  · rw [if_pos htot] at hv
    rcases lookupA_foldl_insert_mem _ _ _ _ hv with hm | hbase
    · rcases hm with ⟨c, hc, hvc⟩
      have hcle : c ≤ entries.length := by
        rcases List.mem_append.mp hc with h | h
        · rcases mem_langUsage _ _ _ _ h with ⟨_, hcount, _⟩
          rw [hcount]
          exact List.countP_le_length _
        · rcases mem_toolUsage _ _ _ _ h with ⟨hcount, _⟩
          rw [hcount]
          exact List.countP_le_length _
      subst hvc
      refine ⟨⟨c, hcle, rfl⟩, ?_, ?_⟩
      · exact div_nonneg (Nat.cast_nonneg c) (Nat.cast_nonneg entries.length)
      · rw [div_le_one (by exact_mod_cast htot)]
        exact_mod_cast hcle
    · simp [initInsights, lookupA] at hbase
  · rw [if_neg htot] at hv
    simp [initInsights, lookupA] at hv

/-- Witness for C1 at the concrete ten-command python history. -/
theorem proficiency_ratio_bounds_witness :
    (∃ c : Nat, c ≤ exampleHistory.length ∧
        ((4 : Nat) : Rat) / ((10 : Nat) : Rat)
          = (c : Rat) / (exampleHistory.length : Rat)) ∧
      0 ≤ ((4 : Nat) : Rat) / ((10 : Nat) : Rat) ∧
      ((4 : Nat) : Rat) / ((10 : Nat) : Rat) ≤ 1 :=
  proficiency_ratio_bounds.1 ["python"] (fun _ => false) exampleHistory "python"
    (((4 : Nat) : Rat) / ((10 : Nat) : Rat)) rfl

/-- C2: an analysis pass over zero total commands produces an empty
`Productivity` map and an empty `Proficiency` map (no divide-by-zero entry
is ever created: both divisions are guarded by a positive total), and
`primaryRole` stays the empty string of the fresh accumulator; more
generally a zero-command pass leaves `proficiency` and `primaryRole` of any
accumulator untouched. -/
theorem zero_commands_empty_metrics
    (installedLangs : List String) (toolInstalled : String → Bool)
    (ins : DetailedInsights) :
    (analyzeCommands installedLangs toolInstalled [] ins).workPatterns.productivity
        = [] ∧
    (analyzeCommands installedLangs toolInstalled [] ins).technicalProfile.proficiency
        = ins.technicalProfile.proficiency ∧
    (analyzeCommands installedLangs toolInstalled [] ins).technicalProfile.primaryRole
        = ins.technicalProfile.primaryRole ∧
    (analyzeCommands installedLangs toolInstalled []
        initInsights).technicalProfile.proficiency = [] ∧
    (analyzeCommands installedLangs toolInstalled []
        initInsights).technicalProfile.primaryRole = "" := by
  have hlu : langUsage installedLangs [] = [] := by
    simp [langUsage]
  have htu : toolUsage toolInstalled [] = [] := by
    simp [toolUsage]
  refine ⟨?_, ?_, ?_, ?_, ?_⟩ <;>
    simp [analyzeCommands, hlu, htu, calculateProductivityMetrics, getMostUsed,
      initInsights]

theorem fieldsAux_nil_of_all_ws :
    (l : List Char) → (∀ c ∈ l, c.isWhitespace = true) → fieldsAux [] l = []
  | [], _ => rfl
  | c :: cs, h => by
    have hc : c.isWhitespace = true := h c (List.mem_cons_self c cs)
    have hcs : ∀ c ∈ cs, c.isWhitespace = true :=
      fun d hd => h d (List.mem_cons_of_mem c hd)
    simp only [fieldsAux, hc, if_true, List.isEmpty_nil]
    exact fieldsAux_nil_of_all_ws cs hcs

/-- C3: cleaning a raw history line returns the last whitespace-separated
token of the line; a line consisting only of whitespace cleans to the empty
string, and `readHistory` creates no entry for it (the line is dropped). -/
theorem cleanHistoryLine_last_token :
    (∀ (line : String) (h : fields line ≠ []),
      cleanHistoryLine line = (fields line).getLast h) ∧
    (∀ ws : String, (∀ c ∈ ws.toList, c.isWhitespace = true) →
      cleanHistoryLine ws = "") ∧
    (∀ (pre post : List String) (ws : String) (now : Nat),
      (∀ c ∈ ws.toList, c.isWhitespace = true) →
      readHistory (pre ++ ws :: post) now = readHistory (pre ++ post) now) := by
  have hws : ∀ ws : String, (∀ c ∈ ws.toList, c.isWhitespace = true) →
      cleanHistoryLine ws = "" := by
    intro ws h
    unfold cleanHistoryLine fields
    rw [fieldsAux_nil_of_all_ws ws.toList h]
    rfl
  refine ⟨?_, hws, ?_⟩
  · intro line h
    unfold cleanHistoryLine
    rw [List.getLast?_eq_getLast (fields line) h]
  · intro pre post ws now h
    unfold readHistory
    rw [List.filterMap_append, List.filterMap_append, List.filterMap_cons]
    simp [hws ws h]

/-- Witness for C3 at concrete inputs: a two-token line cleans to its last
token, an all-blank line cleans to empty, and the blank line is dropped by
`readHistory`. -/
theorem cleanHistoryLine_last_token_witness :
    cleanHistoryLine "  " = "" ∧
    readHistory (["git status"] ++ "  " :: ["ls"]) 0
      = readHistory (["git status"] ++ ["ls"]) 0 :=
  ⟨cleanHistoryLine_last_token.2.1 "  " (by decide),
   cleanHistoryLine_last_token.2.2 ["git status"] ["ls"] "  " 0 (by decide)⟩

/-- C4: classifying `git commit -m x` yields a category set containing
`development` and the `git_workflow` workflow-pattern regex matches it;
classifying `rm -rf tmp` yields a category set containing `file`. -/
theorem classify_git_and_rm :
    "development" ∈ categorizeCommand "git commit -m x" ∧
    gitWorkflowMatch "git commit -m x" = true ∧
    "file" ∈ categorizeCommand "rm -rf tmp" := by
  decide

/-- Counterexample for C5: the language `java` is in the catalog but has no
package-manager alias, so `getPackageManager` returns the empty string and
`strings.Contains(cmd, "")` is true for every command; the command `ls`,
which contains neither `java` nor any alias of `java`, is nevertheless
counted as a `java` usage when `java` is installed — refuting the claimed
"iff the command contains the invocation name or its package-manager
alias". -/
theorem langUsage_empty_alias_cex :
    lookupA (langUsage ["java"] [exEntry "ls"]) "java" = some 1 ∧
    containsStr "ls" "java" = false ∧
    getPackageManager "java" = "" ∧
    langMatchesClaim "ls" "java" = false := by
  decide

/-- C5 as amended: a command is counted for a catalog language iff the
language is among the installed ones and the command contains, as a
substring, the language's invocation name or the string returned by the
package-manager table — which is the empty string (contained in every
command) for languages without a table entry; separately, a language absent
from the installed set and a development tool whose install probe fails are
never attributed any usage. -/
theorem langUsage_amended (installedLangs : List String)
    (toolInstalled : String → Bool) (entries : List CommandEntry)
    (lang tool : String) (c : Nat) :
    (lookupA (langUsage installedLangs entries) lang = some c ↔
      lang ∈ installedLangs ∧ 0 < c ∧
        c = entries.countP (fun e => langMatches e.command lang)) ∧
    (lang ∉ installedLangs → lookupA (langUsage installedLangs entries) lang = none) ∧
    (toolInstalled tool = false →
      lookupA (toolUsage toolInstalled entries) tool = none) := by
  refine ⟨?_, ?_, fun h => lookupA_toolUsage_not_installed _ _ _ h⟩
  · rw [lookupA_langUsage]
    constructor
    · intro h
      by_cases hcond : lang ∈ installedLangs ∧
          0 < entries.countP (fun e => langMatches e.command lang)
      · rw [if_pos hcond] at h
        cases h
        exact ⟨hcond.1, hcond.2, rfl⟩
      · rw [if_neg hcond] at h
        exact Option.noConfusion h
    · intro ⟨hmem, hpos, hc⟩
      subst hc
      rw [if_pos ⟨hmem, hpos⟩]
  · intro h
    rw [lookupA_langUsage, if_neg (fun hc => h hc.1)]

/-- Witness for C5's amended statement: with installed catalog `[java]` and
the single command `ls`, the usage map holds `java`, and neither a language
outside the catalog nor an uninstalled tool gets an entry. -/
theorem langUsage_amended_witness :
    ("java" ∈ ["java"] ∧ 0 < 1 ∧
      1 = List.countP (fun e => langMatches e.command "java") [exEntry "ls"]) ∧
    lookupA (langUsage ["java"] [exEntry "ls"]) "rust" = none ∧
    lookupA (toolUsage (fun _ => false) [exEntry "git st"]) "git" = none := by
  refine ⟨?_, ?_, ?_⟩
  · exact (langUsage_amended ["java"] (fun _ => false) [exEntry "ls"] "java" "git"
      1).1.mp (by decide)
  · exact (langUsage_amended ["java"] (fun _ => false) [exEntry "ls"] "rust" "git"
      1).2.1 (by decide)
  · exact (langUsage_amended ["java"] (fun _ => false) [exEntry "git st"] "rust" "git"
      1).2.2 rfl

/-- C6 (code bug): `getMostUsed` keeps the first maximum in iteration order,
so with the equal maxima `python = 2` and `go = 2` the selected key differs
between the two iteration orders of the same map — and Go map iteration
order is randomized per run, so the tie-break is not stable across runs. -/
theorem getMostUsed_order_dependent :
    getMostUsed [("python", 2), ("go", 2)] = some "python" ∧
    getMostUsed [("go", 2), ("python", 2)] = some "go" ∧
    getMostUsed [] = none := by
  decide

theorem insertByCount_head_eq (x : Nat × Nat) (l : List (Nat × Nat))
    (z : Nat × Nat) (hz : (insertByCount x l).head? = some z) :
    z = x ∨ l.head? = some z := by
  cases l with
  | nil =>
    simp only [insertByCount, List.head?_cons] at hz
    exact Or.inl (Option.some.injEq _ _ ▸ hz).symm
  | cons y ys =>
    by_cases hy : y.2 > x.2
    · simp only [insertByCount, if_pos hy, List.head?_cons] at hz
      exact Or.inr (by simp [List.head?_cons, hz])
    · simp only [insertByCount, if_neg hy, List.head?_cons] at hz
      exact Or.inl (Option.some.injEq _ _ ▸ hz).symm

theorem chain_insertByCount (x : Nat × Nat) :
    (l : List (Nat × Nat)) → List.Chain' (fun a b => b.2 ≤ a.2) l →
    List.Chain' (fun a b => b.2 ≤ a.2) (insertByCount x l)
  | [], _ => List.chain'_singleton x
  | y :: ys, h => by
    by_cases hy : y.2 > x.2
    · simp only [insertByCount, if_pos hy]
      refine List.chain'_cons'.mpr ⟨?_, chain_insertByCount x ys h.tail⟩
      intro z hz
      rcases insertByCount_head_eq x ys z hz with hzx | hzy
      · subst hzx
        exact Nat.le_of_lt hy
      · exact (List.chain'_cons'.mp h).1 z hzy
    · simp only [insertByCount, if_neg hy]
      exact List.chain'_cons.mpr ⟨Nat.le_of_not_lt hy, h⟩

theorem chain_sortByCountDesc :
    (l : List (Nat × Nat)) → List.Chain' (fun a b => b.2 ≤ a.2) (sortByCountDesc l)
  | [] => List.chain'_nil
  | x :: xs => chain_insertByCount x (sortByCountDesc xs) (chain_sortByCountDesc xs)

theorem mem_dedupFirst {α : Type} [DecidableEq α] :
    (l : List α) → ∀ x, x ∈ dedupFirst l → x ∈ l
  | [], x, h => absurd h (List.not_mem_nil x)
  | a :: t, x, h => by
    simp only [dedupFirst] at h
    rcases List.mem_cons.mp h with h | h
    · exact h ▸ List.mem_cons_self a t
    · exact List.mem_cons_of_mem a (mem_dedupFirst t x (List.mem_of_mem_filter h))

theorem dedupFirst_const {α : Type} [DecidableEq α] (a : α) :
    (l : List α) → l ≠ [] → (∀ x ∈ l, x = a) → dedupFirst l = [a]
  | [], h, _ => absurd rfl h
  | b :: t, _, hall => by
    have hb : b = a := hall b (List.mem_cons_self b t)
    subst hb
    simp only [dedupFirst]
    congr 1
    refine List.filter_eq_nil_iff.mpr ?_
    intro x hx
    have hx' : x = b := hall x (List.mem_cons_of_mem _ (mem_dedupFirst t x hx))
    simp [hx']

/-- Counterexample for C7: for the tied buckets of the map `{14 ↦ 2, 15 ↦ 2}`
taken in the iteration order `[(15, 2), (14, 2)]` — an order the randomized
Go map iteration can produce — `getPeakHours` returns `[15, 14]`, whereas
the claimed lower-hour-first tie-break would return `[14, 15]`. -/
theorem getPeakHours_tie_cex :
    getPeakHours [(15, 2), (14, 2)] = [15, 14] ∧
    getPeakHoursClaim [(15, 2), (14, 2)] = [14, 15] := by
  decide

/-- C7 as amended: `getPeakHours` sorts the hour buckets by descending count
and returns at most 3 hour values, and for a dataset whose commands all fall
in hour 14 it returns exactly `[14]`; the order among buckets with equal
counts is not specified (it depends on the randomized map iteration order
and an unstable sort), so ties are not guaranteed to be broken by lower
hour first. -/
theorem getPeakHours_amended (timeOfDay : List (Nat × Nat))
    (entries : List CommandEntry) (hne : entries ≠ [])
    (hall : ∀ e ∈ entries, e.hour = 14) :
    (getPeakHours timeOfDay).length ≤ 3 ∧
    List.Chain' (fun a b => b.2 ≤ a.2) (sortByCountDesc timeOfDay) ∧
    getPeakHours (hourBuckets entries) = [14] := by
  refine ⟨?_, chain_sortByCountDesc timeOfDay, ?_⟩
  · simp only [getPeakHours, List.length_map, List.length_take]
    exact Nat.min_le_left _ _
  · have hmapne : entries.map (fun e => e.hour) ≠ [] := by
      simp [List.map_eq_nil_iff, hne]
    have hmapall : ∀ x ∈ entries.map (fun e => e.hour), x = 14 := by
      intro x hx
      rcases List.mem_map.mp hx with ⟨e, he, hex⟩
      rw [← hex]
      exact hall e he
    have hd : dedupFirst (entries.map (fun e => e.hour)) = [14] :=
      dedupFirst_const 14 _ hmapne hmapall
    simp [hourBuckets, hd, getPeakHours, sortByCountDesc, insertByCount]

/-- Witness for C7 at a concrete bucket list and a concrete one-command
hour-14 dataset. -/
theorem getPeakHours_amended_witness :
    (getPeakHours [(1, 5), (2, 7), (3, 7), (4, 1)]).length ≤ 3 ∧
    List.Chain' (fun a b => b.2 ≤ a.2)
      (sortByCountDesc [(1, 5), (2, 7), (3, 7), (4, 1)]) ∧
    getPeakHours (hourBuckets [{ command := "ls", hour := 14, categories := [] }])
      = [14] :=
  getPeakHours_amended [(1, 5), (2, 7), (3, 7), (4, 1)]
    [{ command := "ls", hour := 14, categories := [] }] (by decide) (by decide)

theorem applyExport_aliases (c : ShellConfig) (line : String) :
    (applyExport c line).aliases = c.aliases := by
  unfold applyExport
  by_cases hp : hasPrefixStr line "export " = true
  · rw [if_pos hp]
    rcases splitEq (trimPrefixStr line "export ").toList with _ | nv
    · rfl
    · rfl
  · rw [if_neg hp]

theorem applyAlias_environment (c : ShellConfig) (line : String) :
    (applyAlias c line).environment = c.environment := by
  unfold applyAlias
  by_cases hp : hasPrefixStr line "alias " = true
  · rw [if_pos hp]
    rcases splitEq (trimPrefixStr line "alias ").toList with _ | nv
    · rfl
    · rfl
  · rw [if_neg hp]

theorem applyAlias_stable (line n v : String)
    (h : lookupA (applyAlias emptyShellConfig line).aliases n = some v)
    (cfg : ShellConfig) :
    lookupA (applyAlias cfg line).aliases n = some v := by
  unfold applyAlias at h ⊢
  by_cases hp : hasPrefixStr line "alias " = true
  · rw [if_pos hp] at h ⊢
    rcases hsp : splitEq (trimPrefixStr line "alias ").toList with _ | nv
    · rw [hsp] at h
      exact absurd h (by simp [emptyShellConfig, lookupA])
    · rw [hsp] at h
      simp only [insertA, emptyShellConfig, List.filter_nil, lookupA] at h
      by_cases hn : n = trimSpace (String.mk nv.1)
      · rw [if_pos hn] at h
        cases h
        rw [hn]
        exact lookupA_insertA_self _ _ _
      · rw [if_neg hn] at h
        exact Option.noConfusion h
  · rw [if_neg hp] at h
    exact absurd h (by simp [emptyShellConfig, lookupA])

theorem applyExport_stable (line n v : String)
    (h : lookupA (applyExport emptyShellConfig line).environment n = some v)
    (cfg : ShellConfig) :
    lookupA (applyExport cfg line).environment n = some v := by
  unfold applyExport at h ⊢
  by_cases hp : hasPrefixStr line "export " = true
  · rw [if_pos hp] at h ⊢
    rcases hsp : splitEq (trimPrefixStr line "export ").toList with _ | nv
    · rw [hsp] at h
      exact absurd h (by simp [emptyShellConfig, lookupA])
    · rw [hsp] at h
      simp only [insertA, emptyShellConfig, List.filter_nil, lookupA] at h
      by_cases hn : n = trimSpace (String.mk nv.1)
      · rw [if_pos hn] at h
        cases h
        rw [hn]
        exact lookupA_insertA_self _ _ _
      · rw [if_neg hn] at h
        exact Option.noConfusion h
  · rw [if_neg hp] at h
    exact absurd h (by simp [emptyShellConfig, lookupA])

theorem applyExport_env_congr (c₁ c₂ : ShellConfig) (line : String)
    (h : c₁.environment = c₂.environment) :
    (applyExport c₁ line).environment = (applyExport c₂ line).environment := by
  unfold applyExport
  by_cases hp : hasPrefixStr line "export " = true
  · rw [if_pos hp, if_pos hp]
    rcases splitEq (trimPrefixStr line "export ").toList with _ | nv
    · exact h
    · simp [h]
  · rw [if_neg hp, if_neg hp]
    exact h

theorem splitEq_none_of_no_eq :
    (l : List Char) → (∀ c ∈ l, c ≠ '=') → splitEq l = none
  | [], _ => rfl
  | c :: cs, h => by
    have hc : ¬ c = '=' := h c (List.mem_cons_self c cs)
    simp only [splitEq, if_neg hc,
      splitEq_none_of_no_eq cs (fun d hd => h d (List.mem_cons_of_mem c hd)),
      Option.map_none']

theorem trimPrefixStr_chars (s p : String) :
    ∀ c ∈ (trimPrefixStr s p).toList, c ∈ s.toList := by
  intro c hc
  unfold trimPrefixStr at hc
  by_cases hp : hasPrefixStr s p = true
  · rw [if_pos hp] at hc
    exact List.mem_of_mem_drop hc
  · rw [if_neg hp] at hc
    exact hc

/-- C8: parsing `alias ll='ls -la'` yields the alias mapping
`ll ↦ ls -la` with the surrounding quotes stripped; parsing
`export PATH=$PATH:/x` yields the environment mapping `PATH ↦ $PATH:/x`;
when several lines assign the same name the last occurrence wins (a final
assigning line determines the looked-up value no matter what came before);
and a line with no `=` is skipped, leaving the config unchanged. -/
theorem parseShellConfig_alias_export :
    lookupA (parseShellConfig ["alias ll=\x27ls -la\x27"] emptyShellConfig).aliases "ll"
      = some "ls -la" ∧
    lookupA (parseShellConfig ["export PATH=$PATH:/x"] emptyShellConfig).environment
      "PATH" = some "$PATH:/x" ∧
    (∀ (content : List String) (cfg : ShellConfig) (line n v : String),
      lookupA (parseConfigLine emptyShellConfig line).aliases n = some v →
      lookupA (parseShellConfig (content ++ [line]) cfg).aliases n = some v) ∧
    (∀ (content : List String) (cfg : ShellConfig) (line n v : String),
      lookupA (parseConfigLine emptyShellConfig line).environment n = some v →
      lookupA (parseShellConfig (content ++ [line]) cfg).environment n = some v) ∧
    (∀ (cfg : ShellConfig) (line : String), (∀ c ∈ line.toList, c ≠ '=') →
      parseConfigLine cfg line = cfg) := by
  have hskip : ∀ (cfg : ShellConfig) (line : String),
      (∀ c ∈ line.toList, c ≠ '=') → parseConfigLine cfg line = cfg := by
    intro cfg line h
    have ha : splitEq (trimPrefixStr line "alias ").toList = none :=
      splitEq_none_of_no_eq _ (fun c hc => h c (trimPrefixStr_chars line "alias " c hc))
    have he : splitEq (trimPrefixStr line "export ").toList = none :=
      splitEq_none_of_no_eq _ (fun c hc => h c (trimPrefixStr_chars line "export " c hc))
    simp only [String.toList] at ha he
    unfold parseConfigLine applyAlias applyExport
    by_cases hpa : hasPrefixStr line "alias " = true <;>
      by_cases hpe : hasPrefixStr line "export " = true <;>
        simp [hpa, hpe, ha, he]
  refine ⟨by decide, by decide, ?_, ?_, hskip⟩
  · intro content cfg line n v h
    unfold parseShellConfig
    rw [List.foldl_append, List.foldl_cons, List.foldl_nil]
    rw [parseConfigLine, applyExport_aliases] at h ⊢
    exact applyAlias_stable line n v h _
  · intro content cfg line n v h
    unfold parseShellConfig
    rw [List.foldl_append, List.foldl_cons, List.foldl_nil]
    rw [parseConfigLine,
      applyExport_env_congr (applyAlias emptyShellConfig line) emptyShellConfig line
        (applyAlias_environment _ _)] at h
    rw [parseConfigLine,
      applyExport_env_congr (applyAlias (List.foldl parseConfigLine cfg content) line)
        (List.foldl parseConfigLine cfg content) line (applyAlias_environment _ _)]
    exact applyExport_stable line n v h _

/-- Witness for C8: two alias lines assigning `x` leave the later value, two
export lines assigning `P` leave the later value, and a line without `=` is
a no-op. -/
theorem parseShellConfig_alias_export_witness :
    lookupA (parseShellConfig (["alias x=\x27a\x27"] ++ ["alias x=\x27b\x27"])
        emptyShellConfig).aliases "x" = some "b" ∧
    lookupA (parseShellConfig (["export P=1"] ++ ["export P=2"])
        emptyShellConfig).environment "P" = some "2" ∧
    parseConfigLine emptyShellConfig "randomline" = emptyShellConfig :=
  ⟨parseShellConfig_alias_export.2.2.1 ["alias x=\x27a\x27"] emptyShellConfig
      "alias x=\x27b\x27" "x" "b" (by decide),
   parseShellConfig_alias_export.2.2.2.1 ["export P=1"] emptyShellConfig
      "export P=2" "P" "2" (by decide),
   parseShellConfig_alias_export.2.2.2.2 emptyShellConfig "randomline" (by decide)⟩

theorem foldl_step_lookup_none (installedLangs : List String)
    (toolInstalled : String → Bool) (readHist : String → Option (List String))
    (configOf : String → ShellConfig) (nowHour : Nat) (k : String)
    (hk : readHist k = none) (shells : List String) :
    ∀ data : ShellData,
    lookupA (shells.foldl (analyzeShellsStep installedLangs toolInstalled readHist
        configOf nowHour) data).histories k = lookupA data.histories k ∧
    lookupA (shells.foldl (analyzeShellsStep installedLangs toolInstalled readHist
        configOf nowHour) data).shellConfigs k = lookupA data.shellConfigs k := by
  induction shells with
  | nil => exact fun _ => ⟨rfl, rfl⟩
  | cons shell rest ih =>
    intro data
    rw [List.foldl_cons]
    have hstep :
        lookupA (analyzeShellsStep installedLangs toolInstalled readHist configOf
            nowHour data shell).histories k = lookupA data.histories k ∧
        lookupA (analyzeShellsStep installedLangs toolInstalled readHist configOf
            nowHour data shell).shellConfigs k = lookupA data.shellConfigs k := by
      unfold analyzeShellsStep
      rcases hr : readHist shell with _ | lines
      · exact ⟨rfl, rfl⟩
      · have hne : k ≠ shell := by
          intro h
          rw [h, hr] at hk
          exact Option.noConfusion hk
        exact ⟨lookupA_insertA_ne _ _ _ _ hne, lookupA_insertA_ne _ _ _ _ hne⟩
    rcases ih (analyzeShellsStep installedLangs toolInstalled readHist configOf
        nowHour data shell) with ⟨h1, h2⟩
    exact ⟨h1.trans hstep.1, h2.trans hstep.2⟩

theorem foldl_step_lookup_not_mem (installedLangs : List String)
    (toolInstalled : String → Bool) (readHist : String → Option (List String))
    (configOf : String → ShellConfig) (nowHour : Nat) (k : String)
    (shells : List String) (hk : k ∉ shells) :
    ∀ data : ShellData,
    lookupA (shells.foldl (analyzeShellsStep installedLangs toolInstalled readHist
        configOf nowHour) data).histories k = lookupA data.histories k ∧
    lookupA (shells.foldl (analyzeShellsStep installedLangs toolInstalled readHist
        configOf nowHour) data).shellConfigs k = lookupA data.shellConfigs k := by
  induction shells with
  | nil => exact fun _ => ⟨rfl, rfl⟩
  | cons shell rest ih =>
    intro data
    have hne : k ≠ shell := fun h => hk (h ▸ List.mem_cons_self shell rest)
    have hrest : k ∉ rest := fun h => hk (List.mem_cons_of_mem shell h)
    rw [List.foldl_cons]
    have hstep :
        lookupA (analyzeShellsStep installedLangs toolInstalled readHist configOf
            nowHour data shell).histories k = lookupA data.histories k ∧
        lookupA (analyzeShellsStep installedLangs toolInstalled readHist configOf
            nowHour data shell).shellConfigs k = lookupA data.shellConfigs k := by
      unfold analyzeShellsStep
      rcases readHist shell with _ | lines
      · exact ⟨rfl, rfl⟩
      · exact ⟨lookupA_insertA_ne _ _ _ _ hne, lookupA_insertA_ne _ _ _ _ hne⟩
    rcases ih hrest (analyzeShellsStep installedLangs toolInstalled readHist configOf
        nowHour data shell) with ⟨h1, h2⟩
    exact ⟨h1.trans hstep.1, h2.trans hstep.2⟩

theorem foldl_step_lookup_some (installedLangs : List String)
    (toolInstalled : String → Bool) (readHist : String → Option (List String))
    (configOf : String → ShellConfig) (nowHour : Nat) (k : String)
    (lines : List String) (hk : readHist k = some lines) (shells : List String)
    (hmem : k ∈ shells) :
    ∀ data : ShellData,
    lookupA (shells.foldl (analyzeShellsStep installedLangs toolInstalled readHist
        configOf nowHour) data).histories k = some (readHistory lines nowHour) ∧
    lookupA (shells.foldl (analyzeShellsStep installedLangs toolInstalled readHist
        configOf nowHour) data).shellConfigs k = some (configOf k) := by
  induction shells with
  | nil => exact absurd hmem (List.not_mem_nil k)
  | cons shell rest ih =>
    intro data
    rw [List.foldl_cons]
    by_cases hrest : k ∈ rest
    · exact ih hrest _
    · have hks : k = shell := by
        rcases List.mem_cons.mp hmem with h | h
        · exact h
        · exact absurd h hrest
      subst hks
      rcases foldl_step_lookup_not_mem installedLangs toolInstalled readHist configOf
          nowHour k rest hrest (analyzeShellsStep installedLangs toolInstalled
            readHist configOf nowHour data k) with ⟨h1, h2⟩
      refine ⟨h1.trans ?_, h2.trans ?_⟩
      · unfold analyzeShellsStep
        rw [hk]
        exact lookupA_insertA_self _ _ _
      · unfold analyzeShellsStep
        rw [hk]
        exact lookupA_insertA_self _ _ _

/-- C9: when one shell's history file is unreadable, the snapshot has no
entry at all for that shell — neither in `histories` nor in `shellConfigs` —
and every other shell whose history reads successfully gets exactly the
history and config computed from its own file, unaffected by the failing
shell. -/
theorem analyzeShells_missing_isolated (installedLangs : List String)
    (toolInstalled : String → Bool) (readHist : String → Option (List String))
    (configOf : String → ShellConfig) (nowHour : Nat) (shells : List String)
    (bad s : String) (lines : List String) (hbad : readHist bad = none)
    (hs : s ∈ shells) (hlines : readHist s = some lines) :
    lookupA (analyzeShells installedLangs toolInstalled readHist configOf nowHour
        shells).histories bad = none ∧
    lookupA (analyzeShells installedLangs toolInstalled readHist configOf nowHour
        shells).shellConfigs bad = none ∧
    lookupA (analyzeShells installedLangs toolInstalled readHist configOf nowHour
        shells).histories s = some (readHistory lines nowHour) ∧
    lookupA (analyzeShells installedLangs toolInstalled readHist configOf nowHour
        shells).shellConfigs s = some (configOf s) := by
  unfold analyzeShells
  rcases foldl_step_lookup_none installedLangs toolInstalled readHist configOf nowHour
      bad hbad shells initShellData with ⟨h1, h2⟩
  rcases foldl_step_lookup_some installedLangs toolInstalled readHist configOf nowHour
      s lines hlines shells hs initShellData with ⟨h3, h4⟩
  exact ⟨h1, h2, h3, h4⟩

/-- Witness for C9 with the three configured shells, where only the zsh
history is unreadable. -/
theorem analyzeShells_missing_isolated_witness :
    lookupA (analyzeShells ["python"] (fun _ => false) exReadHist exConfigOf 9
        ["bash", "zsh", "fish"]).histories "zsh" = none ∧
    lookupA (analyzeShells ["python"] (fun _ => false) exReadHist exConfigOf 9
        ["bash", "zsh", "fish"]).shellConfigs "zsh" = none ∧
    lookupA (analyzeShells ["python"] (fun _ => false) exReadHist exConfigOf 9
        ["bash", "zsh", "fish"]).histories "bash" = some (readHistory ["ls"] 9) ∧
    lookupA (analyzeShells ["python"] (fun _ => false) exReadHist exConfigOf 9
        ["bash", "zsh", "fish"]).shellConfigs "bash" = some (exConfigOf "bash") :=
  analyzeShells_missing_isolated ["python"] (fun _ => false) exReadHist exConfigOf 9
    ["bash", "zsh", "fish"] "zsh" "bash" ["ls"] rfl (by decide) rfl

theorem analyzeCommands_replaces (installedLangs : List String)
    (toolInstalled : String → Bool) (entries : List CommandEntry)
    (i1 i2 : DetailedInsights) :
    (analyzeCommands installedLangs toolInstalled entries i1).technicalProfile.techStack
      = (analyzeCommands installedLangs toolInstalled entries
          i2).technicalProfile.techStack ∧
    (analyzeCommands installedLangs toolInstalled entries i1).workPatterns.peakHours
      = (analyzeCommands installedLangs toolInstalled entries
          i2).workPatterns.peakHours ∧
    (analyzeCommands installedLangs toolInstalled entries i1).workPatterns.productivity
      = (analyzeCommands installedLangs toolInstalled entries
          i2).workPatterns.productivity :=
  ⟨rfl, rfl, rfl⟩

/-- C10: each per-shell pass of `analyzeCommands` wholly replaces the
`TechStack`, `PeakHours` and `Productivity` fields of the shared insights
accumulator — after a run over any shell list ending in a successfully read
shell `s`, those three fields equal the ones of a run that processed `s`
alone — whereas `Proficiency` is written per key into the same map, so a key
not touched by a pass keeps the value it had in the accumulator. -/
theorem analyzeCommands_frame_effect (installedLangs : List String)
    (toolInstalled : String → Bool) (readHist : String → Option (List String))
    (configOf : String → ShellConfig) (nowHour : Nat) (shellsPre : List String)
    (s : String) (lines : List String) (hs : readHist s = some lines)
    (ins : DetailedInsights) (entries : List CommandEntry) (k : String)
    (hk1 : lookupA (langUsage installedLangs entries) k = none)
    (hk2 : lookupA (toolUsage toolInstalled entries) k = none) :
    ((analyzeShells installedLangs toolInstalled readHist configOf nowHour
          (shellsPre ++ [s])).insights.technicalProfile.techStack
        = (analyzeShells installedLangs toolInstalled readHist configOf nowHour
            [s]).insights.technicalProfile.techStack ∧
      (analyzeShells installedLangs toolInstalled readHist configOf nowHour
          (shellsPre ++ [s])).insights.workPatterns.peakHours
        = (analyzeShells installedLangs toolInstalled readHist configOf nowHour
            [s]).insights.workPatterns.peakHours ∧
      (analyzeShells installedLangs toolInstalled readHist configOf nowHour
          (shellsPre ++ [s])).insights.workPatterns.productivity
        = (analyzeShells installedLangs toolInstalled readHist configOf nowHour
            [s]).insights.workPatterns.productivity) ∧
    lookupA (analyzeCommands installedLangs toolInstalled entries
        ins).technicalProfile.proficiency k
      = lookupA ins.technicalProfile.proficiency k := by
  constructor
  · unfold analyzeShells
    rw [List.foldl_append, List.foldl_cons, List.foldl_nil, List.foldl_cons,
      List.foldl_nil]
    unfold analyzeShellsStep
    rw [hs]
    exact analyzeCommands_replaces installedLangs toolInstalled
      (readHistory lines nowHour) _ _
  · simp only [analyzeCommands]
    by_cases htot : 0 < entries.length
    · rw [if_pos htot]
      refine lookupA_foldl_insert_not_mem _ _ _ ?_
      rw [List.map_append]
      intro hmem
      rcases List.mem_append.mp hmem with h | h
      · rw [lookupA_eq_none_iff] at hk1
        exact hk1 h
      · rw [lookupA_eq_none_iff] at hk2
        exact hk2 h
    · rw [if_neg htot]

/-- Witness for C10: a bash-then-zsh run agrees with a zsh-only run on the
replaced fields, and the untouched proficiency key `python` keeps its
accumulator value for a pass over the single command `ls`. -/
theorem analyzeCommands_frame_effect_witness :
    ((analyzeShells ["python"] (fun _ => false) exReadHist exConfigOf 9
          (["bash"] ++ ["fish"])).insights.technicalProfile.techStack
        = (analyzeShells ["python"] (fun _ => false) exReadHist exConfigOf 9
            ["fish"]).insights.technicalProfile.techStack ∧
      (analyzeShells ["python"] (fun _ => false) exReadHist exConfigOf 9
          (["bash"] ++ ["fish"])).insights.workPatterns.peakHours
        = (analyzeShells ["python"] (fun _ => false) exReadHist exConfigOf 9
            ["fish"]).insights.workPatterns.peakHours ∧
      (analyzeShells ["python"] (fun _ => false) exReadHist exConfigOf 9
          (["bash"] ++ ["fish"])).insights.workPatterns.productivity
        = (analyzeShells ["python"] (fun _ => false) exReadHist exConfigOf 9
            ["fish"]).insights.workPatterns.productivity) ∧
    lookupA (analyzeCommands ["python"] (fun _ => false) [exEntry "ls"]
        initInsights).technicalProfile.proficiency "python"
      = lookupA initInsights.technicalProfile.proficiency "python" :=
  analyzeCommands_frame_effect ["python"] (fun _ => false) exReadHist exConfigOf 9
    ["bash"] "fish" ["ls"] rfl initInsights [exEntry "ls"] "python" (by decide)
    (by decide)

end ShellAnalyser
